import Mathlib

/-!
Verification of the frame-filtering core of `just_calibration.py`.

The script loads parallel lists `objpoints`, `imgpoints`, `ret_names`, `vecs`
(3D points, 2D points, frame names, per-frame pose vectors), optionally filters
them by camera displacement (`split_by_distance`, lines 21-42) or by a stride
slice (`l[residue::reduction]`, lines 79-81), and hands the result to an
external calibration solver.

Numeric model: the Python floats are modelled by exact rationals `ℚ`.  The
floating-point expression `np.linalg.norm(tmat_old - tmat) >= min_dist` is
modelled by its exact-real meaning: `min_dist ≤ √‖old - new‖²`, which over the
rationals is equivalent (proved below, `distGE_iff_real`) to the square-free
Boolean `distGE`.  The external library call `R.from_rotvec(...).as_matrix()`
(scipy) is abstracted as a parameter `asMatrix : Vec3 → Mat3`: the repository's
own code only composes it with the matrix-vector product.
-/

namespace GsiCalib

/-- A 3-component vector with exact rational entries (models a numpy
3-vector such as `rvec.reshape(3)` or `tvec`). -/
structure Vec3 where
  x : ℚ
  y : ℚ
  z : ℚ
deriving DecidableEq

instance : Inhabited Vec3 := ⟨⟨0, 0, 0⟩⟩

/-- Componentwise difference `u - v` (models `tmat_old - tmat`). -/
def Vec3.sub (u v : Vec3) : Vec3 := ⟨u.x - v.x, u.y - v.y, u.z - v.z⟩

/-- Squared Euclidean norm: the sum of the squared components. -/
def Vec3.normSq (v : Vec3) : ℚ := v.x * v.x + v.y * v.y + v.z * v.z

/-- Dot product of two 3-vectors. -/
def Vec3.dot (u v : Vec3) : ℚ := u.x * v.x + u.y * v.y + u.z * v.z

/-- A 3×3 matrix, given by its rows (models the rotation matrix
`rmat.as_matrix()`). -/
structure Mat3 where
  r0 : Vec3
  r1 : Vec3
  r2 : Vec3

/-- Matrix-vector product (models `np.dot(rmat.as_matrix(), tvec)`,
line 28). -/
def Mat3.mulVec (m : Mat3) (v : Vec3) : Vec3 := ⟨m.r0.dot v, m.r1.dot v, m.r2.dot v⟩

/-- One entry of `vecs`: the pair `(rvec, tvec)` of per-frame pose vectors
(lines 25-26: `rvec = vecs[i][0]`, `tvec = vecs[i][1]`). -/
structure Pose where
  rvec : Vec3
  tvec : Vec3

instance : Inhabited Pose := ⟨⟨default, default⟩⟩

/-- Exact semantics of the comparison `np.linalg.norm(u - v) >= d`
(lines 33-34), stated without square roots: over the reals,
`√‖u-v‖² ≥ d` holds iff `d ≤ 0` or `d·d ≤ ‖u-v‖²`
(see `distGE_iff_real` below). -/
def distGE (u v : Vec3) (d : ℚ) : Bool :=
  decide (d ≤ 0) || decide (d * d ≤ (u.sub v).normSq)

/-- The loop of lines 24-36 for the frames after frame 0: `old` is
`tmat_old` (the position of the last retained frame), `i` the current index,
and the final argument the number of frames still to process.  A frame is
retained (appended to `arg_split`, line 36) iff its distance from `tmat_old`
is at least `min_dist`, and only then is `tmat_old` updated (line 35). -/
def argSplitAux (d : ℚ) (pos : Nat → Vec3) : Vec3 → Nat → Nat → List Nat
  | _, _, 0 => []
  | old, i, Nat.succ n =>
      if distGE old (pos i) d then i :: argSplitAux d pos (pos i) (i + 1) n
      else argSplitAux d pos old (i + 1) n

/-- The full loop of lines 24-36: frame 0 is always retained and initializes
`tmat_old` (lines 29-31); the remaining frames are processed by
`argSplitAux`.  `pos i` is the computed position of frame `i` and the last
argument is the number of frames, `len(vecs)`. -/
def argSplit (d : ℚ) (pos : Nat → Vec3) : Nat → List Nat
  | 0 => []
  | Nat.succ n => 0 :: argSplitAux d pos (pos 0) 1 n

/-- Lines 27-28: the "camera position" of a frame is the rotation matrix
obtained from its rotation vector, applied to its translation vector. -/
def camPos (asMatrix : Vec3 → Mat3) (p : Pose) : Vec3 :=
  (asMatrix p.rvec).mulVec p.tvec

/-- The position of frame `i` of `vecs` (the `default` is never read for
`i < vecs.length`). -/
def posOf (asMatrix : Vec3 → Mat3) (vecs : List Pose) (i : Nat) : Vec3 :=
  camPos asMatrix (vecs.getD i default)

/-- The list `arg_split` computed by `split_by_distance` from `vecs` and
`min_dist`. -/
def splitArgs (asMatrix : Vec3 → Mat3) (vecs : List Pose) (d : ℚ) : List Nat :=
  argSplit d (posOf asMatrix vecs) vecs.length

/-- The list comprehension of lines 39-41:
`[xs[i] for i in range(len(xs)) if i in arg_split]`, realized by pairing each
element with its index, keeping the indexed pairs whose index occurs in
`idxs`, and projecting the elements back out. -/
def sel {α : Type u} (xs : List α) (idxs : List Nat) : List α :=
  (xs.enum.filter (fun q => idxs.contains q.1)).map Prod.snd

/-- Lines 21-42, `split_by_distance(objpts, imgpts, names, vecs, min_dist)`:
compute the retained indices `arg_split` from the poses, then filter the
three parallel lists by those indices. -/
def split_by_distance {α : Type u} {β : Type v} {γ : Type w}
    (asMatrix : Vec3 → Mat3) (objpts : List α) (imgpts : List β)
    (names : List γ) (vecs : List Pose) (min_dist : ℚ) :
    List α × List β × List γ :=
  let arg_split := splitArgs asMatrix vecs min_dist
  (sel objpts arg_split, sel imgpts arg_split, sel names arg_split)

/-- Helper for the Python slice `xs[r::N]` with `N ≥ 1`: the counter is the
number of elements still to skip before the next retained element. -/
def everyNthAux {α : Type u} (N : Nat) : List α → Nat → List α
  | [], _ => []
  | a :: l, 0 => a :: everyNthAux N l (N - 1)
  | _ :: l, Nat.succ k => everyNthAux N l k

/-- The Python slice `xs[r::N]` of lines 79-81 (for `r ≥ 0`, `N ≥ 1`): drop
the first `r` elements, then keep every `N`-th of the rest. -/
def strideSlice {α : Type u} (xs : List α) (r N : Nat) : List α :=
  everyNthAux N (xs.drop r) 0

/-- The command-line arguments consumed by the filtering stage of `main`
(lines 12-16).  `reduction` and `residue` are modelled as naturals: the spec
constrains them to `N ≥ 1`, `0 ≤ r`. -/
structure Args where
  filterdist : Bool
  filtertime : Bool
  mindist : ℚ
  reduction : Nat
  residue : Nat

/-- The filter dispatch of `main`, lines 73-81: `if args.filterdist: ...
elif args.filtertime: ...` (else: the lists are left untouched). -/
def filterStage {α : Type u} {β : Type v} {γ : Type w}
    (a : Args) (asMatrix : Vec3 → Mat3) (objpts : List α) (imgpts : List β)
    (names : List γ) (vecs : List Pose) :
    List α × List β × List γ :=
  if a.filterdist then
    split_by_distance asMatrix objpts imgpts names vecs a.mindist
  else if a.filtertime then
    (strideSlice objpts a.residue a.reduction,
     strideSlice imgpts a.residue a.reduction,
     strideSlice names a.residue a.reduction)
  else (objpts, imgpts, names)

/-! ### Lemmas about the square-free distance test -/

/-- The test `distGE u v d` is the exact meaning of `np.linalg.norm(u - v) >= d`:
it holds iff `d` is at most the Euclidean norm of the difference `u - v`,
computed over the reals. -/
theorem distGE_iff_real (u v : Vec3) (d : ℚ) :
    distGE u v d = true ↔
      (d : ℝ) ≤ Real.sqrt
        (((u.x : ℝ) - v.x) ^ 2 + ((u.y : ℝ) - v.y) ^ 2 + ((u.z : ℝ) - v.z) ^ 2) := by
  have hsq : (((u.sub v).normSq : ℚ) : ℝ)
      = ((u.x : ℝ) - v.x) ^ 2 + ((u.y : ℝ) - v.y) ^ 2 + ((u.z : ℝ) - v.z) ^ 2 := by
    simp only [Vec3.sub, Vec3.normSq]
    push_cast
    ring
  rw [← hsq]
  constructor
  · intro h
    rw [distGE, Bool.or_eq_true, decide_eq_true_eq, decide_eq_true_eq] at h
    rcases h with hd | hdd
    · have hd0 : (d : ℝ) ≤ 0 := by exact_mod_cast hd
      exact hd0.trans (Real.sqrt_nonneg _)
    · by_cases hd : d ≤ 0
      · have hd0 : (d : ℝ) ≤ 0 := by exact_mod_cast hd
        exact hd0.trans (Real.sqrt_nonneg _)
      · push_neg at hd
        have hdR : (0 : ℝ) < d := by exact_mod_cast hd
        rw [Real.le_sqrt' hdR]
        have hc : ((d * d : ℚ) : ℝ) ≤ (((u.sub v).normSq : ℚ) : ℝ) := by
          exact_mod_cast hdd
        calc (d : ℝ) ^ 2 = ((d * d : ℚ) : ℝ) := by push_cast; ring
          _ ≤ _ := hc
  · intro h
    rw [distGE, Bool.or_eq_true, decide_eq_true_eq, decide_eq_true_eq]
    by_cases hd : d ≤ 0
    · exact Or.inl hd
    · right
      push_neg at hd
      have hdR : (0 : ℝ) < d := by exact_mod_cast hd
      rw [Real.le_sqrt' hdR] at h
      have hc : ((d * d : ℚ) : ℝ) ≤ (((u.sub v).normSq : ℚ) : ℝ) := by
        calc ((d * d : ℚ) : ℝ) = (d : ℝ) ^ 2 := by push_cast; ring
          _ ≤ _ := h
      exact_mod_cast hc

/-- If the threshold is not positive, the distance test always succeeds. -/
theorem distGE_of_nonpos (u v : Vec3) {d : ℚ} (hd : d ≤ 0) :
    distGE u v d = true := by
  simp [distGE, hd]

/-! ### Lemmas about the stride slice -/

/-- A positive skip counter skips exactly that many leading elements. -/
theorem everyNthAux_skip {α : Type u} (N : Nat) :
    ∀ (k : Nat) (xs : List α), everyNthAux N xs k = everyNthAux N (xs.drop k) 0 := by
  intro k
  induction k with
  | zero => intro xs; rfl
  | succ k ih =>
    intro xs
    cases xs with
    | nil => rfl
    | cons x xs => exact ih xs

/-- The `k`-th element of `everyNthAux N xs 0` is the `N·k`-th element
of `xs` (for `N ≥ 1`). -/
theorem everyNthAux_getElem {α : Type u} (N : Nat) (hN : 1 ≤ N) :
    ∀ (k : Nat) (xs : List α), (everyNthAux N xs 0)[k]? = xs[N * k]? := by
  intro k
  induction k with
  | zero =>
    intro xs
    cases xs with
    | nil => rfl
    | cons x xs => simp [everyNthAux]
  | succ k ih =>
    intro xs
    cases xs with
    | nil => rfl
    | cons x xs =>
      show (x :: everyNthAux N xs (N - 1))[k + 1]? = (x :: xs)[N * (k + 1)]?
      rw [List.getElem?_cons_succ, everyNthAux_skip, ih (xs.drop (N - 1)),
        List.getElem?_drop]
      have hm : N * (k + 1) = ((N - 1) + N * k) + 1 := by
        rw [Nat.mul_succ]; omega
      rw [hm, List.getElem?_cons_succ]

/-- The `k`-th element of the Python slice `xs[r::N]` is `xs[r + N·k]`
(for `N ≥ 1`). -/
theorem strideSlice_getElem {α : Type u} (xs : List α) (r N : Nat) (hN : 1 ≤ N)
    (k : Nat) : (strideSlice xs r N)[k]? = xs[r + N * k]? := by
  rw [strideSlice, everyNthAux_getElem N hN k, List.getElem?_drop]

/-- The slice `xs[0::1]` is the identity. -/
theorem strideSlice_zero_one {α : Type u} : ∀ xs : List α, strideSlice xs 0 1 = xs := by
  intro xs
  induction xs with
  | nil => rfl
  | cons x xs ih =>
    show x :: everyNthAux 1 xs 0 = x :: xs
    rw [show everyNthAux 1 xs 0 = strideSlice xs 0 1 from rfl, ih]

/-! ### The greedy structure of the retained-index list -/

/-- The relation holding between two consecutively retained indices `a`
and `b`: frame `b` lies at distance at least `min_dist` from frame `a`,
while every frame strictly between them lies at distance below `min_dist`
from frame `a` (the reference position is frame `a`'s position throughout:
discarded frames never update it). -/
def greedyRel (d : ℚ) (pos : Nat → Vec3) (a b : Nat) : Prop :=
  distGE (pos a) (pos b) d = true ∧
    ∀ k, a < k → k < b → distGE (pos a) (pos k) d = false

/-- Along the loop, with `j` the last retained index (so `tmat_old = pos j`)
and `i` the next index to process, the retained indices form a
`greedyRel`-chain rooted at `j`, provided every index already processed
since `j` was discarded. -/
theorem chain_argSplitAux (d : ℚ) (pos : Nat → Vec3) :
    ∀ (n i j : Nat), j < i →
      (∀ k, j < k → k < i → distGE (pos j) (pos k) d = false) →
      List.Chain (greedyRel d pos) j (argSplitAux d pos (pos j) i n) := by
  intro n
  induction n with
  | zero => intro i j _ _; exact List.Chain.nil
  | succ n ih =>
    intro i j hji hbelow
    cases h : distGE (pos j) (pos i) d with
    | true =>
      have hstep : argSplitAux d pos (pos j) i (n + 1)
          = i :: argSplitAux d pos (pos i) (i + 1) n := by
        simp [argSplitAux, h]
      rw [hstep]
      exact List.Chain.cons ⟨h, hbelow⟩
        (ih (i + 1) i (by omega) (fun k hk1 hk2 => absurd hk2 (by omega)))
    | false =>
      have hstep : argSplitAux d pos (pos j) i (n + 1)
          = argSplitAux d pos (pos j) (i + 1) n := by
        simp [argSplitAux, h]
      rw [hstep]
      refine ih (i + 1) j (by omega) (fun k hk1 hk2 => ?_)
      rcases Nat.lt_or_ge k i with hk | hk
      · exact hbelow k hk1 hk
      · have hki : k = i := by omega
        rw [hki]
        exact h

/-- The whole retained-index list is a `greedyRel`-chain. -/
theorem chain'_argSplit (d : ℚ) (pos : Nat → Vec3) (len : Nat) :
    List.Chain' (greedyRel d pos) (argSplit d pos len) := by
  cases len with
  | zero => simp [argSplit]
  | succ n =>
    have h := chain_argSplitAux d pos n 1 0 (by omega)
      (fun k hk1 hk2 => absurd hk2 (by omega))
    exact h

/-! ### `min_dist ≤ 0` retains everything -/

/-- With a non-positive threshold every frame passes the test, so the loop
retains the consecutive indices `i, i+1, …`. -/
theorem argSplitAux_nonpos (d : ℚ) (pos : Nat → Vec3) (hd : d ≤ 0) :
    ∀ (n : Nat) (old : Vec3) (i : Nat),
      argSplitAux d pos old i n = List.range' i n := by
  intro n
  induction n with
  | zero => intro old i; rfl
  | succ n ih =>
    intro old i
    rw [List.range'_succ]
    simp [argSplitAux, distGE_of_nonpos _ _ hd, ih]

/-- With a non-positive threshold the retained-index list is all of
`0, …, len-1`. -/
theorem argSplit_nonpos (d : ℚ) (pos : Nat → Vec3) (hd : d ≤ 0) (len : Nat) :
    argSplit d pos len = List.range len := by
  cases len with
  | zero => rfl
  | succ n =>
    rw [List.range_eq_range', List.range'_succ]
    show 0 :: argSplitAux d pos (pos 0) 1 n = 0 :: List.range' 1 n
    rw [argSplitAux_nonpos d pos hd n (pos 0) 1]

/-! ### Lemmas about the index-based list comprehension `sel` -/

/-- Generalized origin lemma: filtering the index/value pairs of `xs`
(indexed from `n`) by a predicate on the index, the `k`-th surviving value
is the element of `xs` at the `k`-th surviving index. -/
theorem selAux_getElem {α : Type u} (p : Nat → Bool) :
    ∀ (xs : List α) (n k i : Nat),
      ((List.range' n xs.length).filter p)[k]? = some i →
      (((List.enumFrom n xs).filter (fun q => p q.1)).map Prod.snd)[k]? = xs[i - n]? := by
  intro xs
  induction xs with
  | nil => intro n k i h; simp at h
  | cons x xs ih =>
    intro n k i h
    rw [List.length_cons, List.range'_succ] at h
    have henum : List.enumFrom n (x :: xs) = (n, x) :: List.enumFrom (n + 1) xs := rfl
    cases hp : p n with
    | false =>
      rw [List.filter_cons, if_neg (by simp [hp])] at h
      have hni : n + 1 ≤ i := by
        have hm := List.getElem?_mem h
        rw [List.mem_filter] at hm
        exact (List.mem_range'_1.mp hm.1).1
      rw [henum, List.filter_cons, if_neg (by simp [hp])]
      rw [ih (n + 1) k i h]
      have hsub : i - n = (i - (n + 1)) + 1 := by omega
      rw [hsub, List.getElem?_cons_succ]
    | true =>
      rw [List.filter_cons, if_pos (by simp [hp])] at h
      rw [henum, List.filter_cons, if_pos (by simp [hp])]
      cases k with
      | zero =>
        rw [List.getElem?_cons_zero] at h
        have hin : i = n := by injection h; omega
        rw [hin, Nat.sub_self, List.map_cons, List.getElem?_cons_zero,
          List.getElem?_cons_zero]
      | succ k =>
        rw [List.getElem?_cons_succ] at h
        have hni : n + 1 ≤ i := by
          have hm := List.getElem?_mem h
          rw [List.mem_filter] at hm
          exact (List.mem_range'_1.mp hm.1).1
        rw [List.map_cons, List.getElem?_cons_succ, ih (n + 1) k i h]
        have hsub : i - n = (i - (n + 1)) + 1 := by omega
        rw [hsub, List.getElem?_cons_succ]

/-- Generalized identity lemma: if the predicate accepts every index in
range, the comprehension returns the list unchanged. -/
theorem selAux_all {α : Type u} (p : Nat → Bool) :
    ∀ (xs : List α) (n : Nat),
      (∀ i, n ≤ i → i < n + xs.length → p i = true) →
      ((List.enumFrom n xs).filter (fun q => p q.1)).map Prod.snd = xs := by
  intro xs
  induction xs with
  | nil => intro n _; rfl
  | cons x xs ih =>
    intro n hall
    have henum : List.enumFrom n (x :: xs) = (n, x) :: List.enumFrom (n + 1) xs := rfl
    have hp : p n = true := hall n (Nat.le_refl n) (by simp)
    rw [henum, List.filter_cons, if_pos (by simp [hp]), List.map_cons,
      ih (n + 1) (fun i h1 h2 => hall i (by omega) (by simp at h2 ⊢; omega))]

/-- Generalized sublist lemma: the comprehension only drops elements. -/
theorem selAux_sublist {α : Type u} (p : Nat → Bool) :
    ∀ (xs : List α) (n : Nat),
      List.Sublist (((List.enumFrom n xs).filter (fun q => p q.1)).map Prod.snd) xs := by
  intro xs
  induction xs with
  | nil => intro n; exact List.Sublist.refl []
  | cons x xs ih =>
    intro n
    have henum : List.enumFrom n (x :: xs) = (n, x) :: List.enumFrom (n + 1) xs := rfl
    rw [henum, List.filter_cons]
    cases hp : p n with
    | false =>
      rw [if_neg (by simp [hp])]
      exact (ih (n + 1)).cons x
    | true =>
      rw [if_pos (by simp [hp])]
      rw [List.map_cons]
      exact (ih (n + 1)).cons₂ x

/-- Origin of the `k`-th element of `sel xs idxs`: it is `xs[i]` where `i`
is the `k`-th index of `range (len xs)` that occurs in `idxs`. -/
theorem sel_getElem {α : Type u} (xs : List α) (idxs : List Nat) (k i : Nat)
    (h : ((List.range xs.length).filter (fun j => idxs.contains j))[k]? = some i) :
    (sel xs idxs)[k]? = xs[i]? := by
  rw [List.range_eq_range'] at h
  have := selAux_getElem (fun j => idxs.contains j) xs 0 k i h
  rw [Nat.sub_zero] at this
  exact this

/-- If every index below `len xs` occurs in `idxs`, `sel` is the
identity. -/
theorem sel_all {α : Type u} (xs : List α) (idxs : List Nat)
    (h : ∀ i, i < xs.length → idxs.contains i = true) : sel xs idxs = xs :=
  selAux_all (fun j => idxs.contains j) xs 0 (fun i _ h2 => h i (by omega))

/-- The comprehension `sel xs idxs` is a sublist of `xs`. -/
theorem sel_sublist {α : Type u} (xs : List α) (idxs : List Nat) :
    List.Sublist (sel xs idxs) xs :=
  selAux_sublist (fun j => idxs.contains j) xs 0

/-! ### Concrete data for the witnesses -/

/-- The identity rotation matrix, used by the concrete examples. -/
def exIdMat : Mat3 := ⟨⟨1, 0, 0⟩, ⟨0, 1, 0⟩, ⟨0, 0, 1⟩⟩

/-- The spec's running example: three frames whose already-rotated
positions are `0.0`, `0.05` and `1.0` along one axis (identity rotation,
translations `(0,0,0)`, `(1/20,0,0)`, `(1,0,0)`). -/
def exPoses : List Pose :=
  [⟨⟨0, 0, 0⟩, ⟨0, 0, 0⟩⟩, ⟨⟨0, 0, 0⟩, ⟨1/20, 0, 0⟩⟩, ⟨⟨0, 0, 0⟩, ⟨1, 0, 0⟩⟩]

/-! ### The claims -/

/-- C1: the retained index set is computed greedily in original order.
For any pair of indices retained consecutively by the distance filter, the
distance between their positions is at least `min_dist`, and every index
discarded strictly between them lies at distance below `min_dist` from the
earlier retained frame's position — discarded frames never update the
reference position. -/
theorem splitArgs_greedy (asM : Vec3 → Mat3) (vecs : List Pose) (d : ℚ)
    (m a b : Nat)
    (ha : (splitArgs asM vecs d)[m]? = some a)
    (hb : (splitArgs asM vecs d)[m + 1]? = some b) :
    distGE (posOf asM vecs a) (posOf asM vecs b) d = true ∧
      ∀ k, a < k → k < b → distGE (posOf asM vecs a) (posOf asM vecs k) d = false := by
  have hch : List.Chain' (greedyRel d (posOf asM vecs)) (splitArgs asM vecs d) :=
    chain'_argSplit d (posOf asM vecs) vecs.length
  rw [List.chain'_iff_get] at hch
  obtain ⟨hma, haeq⟩ := List.getElem?_eq_some_iff.mp ha
  obtain ⟨hmb, hbeq⟩ := List.getElem?_eq_some_iff.mp hb
  have h := hch m (by omega)
  have hA : (splitArgs asM vecs d).get ⟨m, by omega⟩ = a := by
    rw [List.get_eq_getElem]
    exact haeq
  have hB : (splitArgs asM vecs d).get ⟨m + 1, by omega⟩ = b := by
    rw [List.get_eq_getElem]
    exact hbeq
  rw [← hA, ← hB]
  exact h

/-- Witness for C1 on the spec's example (positions 0, 0.05, 1 and
`min_dist = 1/2`): frames 0 and 2 are retained consecutively, at distance
at least 1/2, while the discarded frame 1 is within 1/2 of frame 0. -/
theorem splitArgs_greedy_witness :
    distGE (posOf (fun _ => exIdMat) exPoses 0) (posOf (fun _ => exIdMat) exPoses 2)
        (1/2) = true ∧
      distGE (posOf (fun _ => exIdMat) exPoses 0) (posOf (fun _ => exIdMat) exPoses 1)
        (1/2) = false := by
  have ha : (splitArgs (fun _ => exIdMat) exPoses (1/2))[0]? = some 0 := by
    norm_num [splitArgs, argSplit, argSplitAux, distGE, posOf, camPos, Mat3.mulVec,
      Vec3.dot, Vec3.sub, Vec3.normSq, exPoses, exIdMat]
  have hb : (splitArgs (fun _ => exIdMat) exPoses (1/2))[1]? = some 2 := by
    norm_num [splitArgs, argSplit, argSplitAux, distGE, posOf, camPos, Mat3.mulVec,
      Vec3.dot, Vec3.sub, Vec3.normSq, exPoses, exIdMat]
  have h := splitArgs_greedy (fun _ => exIdMat) exPoses (1/2) 0 0 2 ha hb
  exact ⟨h.1, h.2 1 (by omega) (by omega)⟩

/-- C4: for every non-empty input the distance filter retains index 0, and
frame 0's position initializes the reference position (`tmat_old`) for the
rest of the loop. -/
theorem splitArgs_retains_zero (asM : Vec3 → Mat3) (vecs : List Pose) (d : ℚ)
    (h : vecs ≠ []) :
    0 ∈ splitArgs asM vecs d ∧
      splitArgs asM vecs d
        = 0 :: argSplitAux d (posOf asM vecs) (posOf asM vecs 0) 1 (vecs.length - 1) := by
  obtain ⟨v, vs, rfl⟩ := List.exists_cons_of_ne_nil h
  exact ⟨List.mem_cons_self 0 _, rfl⟩

/-- Witness for C4 at the example input (any `min_dist`, here `1/2`). -/
theorem splitArgs_retains_zero_witness :
    0 ∈ splitArgs (fun _ => exIdMat) exPoses (1/2) ∧
      splitArgs (fun _ => exIdMat) exPoses (1/2)
        = 0 :: argSplitAux (1/2) (posOf (fun _ => exIdMat) exPoses)
            (posOf (fun _ => exIdMat) exPoses 0) 1 (exPoses.length - 1) :=
  splitArgs_retains_zero (fun _ => exIdMat) exPoses (1/2) (by simp [exPoses])

/-- C5: for `min_dist = 0` the distance filter retains every frame — on
parallel input lists of equal length the three outputs equal the inputs. -/
theorem split_by_distance_zero_id {α : Type u} {β : Type v} {γ : Type w}
    (asM : Vec3 → Mat3) (o : List α) (im : List β) (nm : List γ) (vecs : List Pose)
    (ho : o.length = vecs.length) (hi : im.length = vecs.length)
    (hn : nm.length = vecs.length) :
    split_by_distance asM o im nm vecs 0 = (o, im, nm) := by
  have hargs : splitArgs asM vecs 0 = List.range vecs.length :=
    argSplit_nonpos 0 (posOf asM vecs) le_rfl vecs.length
  have hc : ∀ (xs : List Nat) (i : Nat), i ∈ xs → xs.contains i = true :=
    fun xs i hm => List.elem_eq_true_of_mem hm
  show (sel o _, sel im _, sel nm _) = (o, im, nm)
  rw [hargs, sel_all o _ (fun i h2 => hc _ i (List.mem_range.mpr (by omega))),
    sel_all im _ (fun i h2 => hc _ i (List.mem_range.mpr (by omega))),
    sel_all nm _ (fun i h2 => hc _ i (List.mem_range.mpr (by omega)))]

/-- Witness for C5 on the example input with three concrete parallel
lists. -/
theorem split_by_distance_zero_id_witness :
    split_by_distance (fun _ => exIdMat) [10, 20, 30] [4, 5, 6] ["a", "b", "c"]
        exPoses 0 = ([10, 20, 30], [4, 5, 6], ["a", "b", "c"]) :=
  split_by_distance_zero_id (fun _ => exIdMat) [10, 20, 30] [4, 5, 6]
    ["a", "b", "c"] exPoses rfl rfl rfl

/-- C8: on empty input the distance filter returns three empty lists, and
on a single-frame input it returns exactly that frame in all three
lists. -/
theorem split_by_distance_empty_single {α : Type u} {β : Type v} {γ : Type w}
    (asM : Vec3 → Mat3) (d : ℚ) (a : α) (b : β) (c : γ) (v : Pose) :
    split_by_distance asM ([] : List α) ([] : List β) ([] : List γ) [] d
        = ([], [], []) ∧
      split_by_distance asM [a] [b] [c] [v] d = ([a], [b], [c]) :=
  ⟨rfl, rfl⟩

/-- C9: the distance filter never rewrites elements: each output component
is the subsequence of the corresponding input selected at the retained
indices (so it is a sublist of the input, in original relative order); the
pose list is only read to compute `splitArgs` and is not part of the
output. -/
theorem split_by_distance_subselection {α : Type u} {β : Type v} {γ : Type w}
    (asM : Vec3 → Mat3) (o : List α) (im : List β) (nm : List γ)
    (vecs : List Pose) (d : ℚ) :
    (split_by_distance asM o im nm vecs d).1 = sel o (splitArgs asM vecs d) ∧
      (split_by_distance asM o im nm vecs d).2.1 = sel im (splitArgs asM vecs d) ∧
      (split_by_distance asM o im nm vecs d).2.2 = sel nm (splitArgs asM vecs d) ∧
      List.Sublist (split_by_distance asM o im nm vecs d).1 o ∧
      List.Sublist (split_by_distance asM o im nm vecs d).2.1 im ∧
      List.Sublist (split_by_distance asM o im nm vecs d).2.2 nm :=
  ⟨rfl, rfl, rfl, sel_sublist o _, sel_sublist im _, sel_sublist nm _⟩

/-- C2: for `reduction = N ≥ 1` and `residue = r`, the stride filter
returns, for each of the three parallel lists, exactly the entries at
indices `r, r+N, r+2N, …` below the length, in original order: the `k`-th
output entry is the input entry at index `r + N·k` (and the output ends
exactly when that index leaves the list).  In particular `N = 1, r = 0` is
the identity. -/
theorem strideSlice_spec {α : Type u} {β : Type v} {γ : Type w}
    (o : List α) (im : List β) (nm : List γ) (N r : Nat) (hN : 1 ≤ N) :
    (∀ k, (strideSlice o r N)[k]? = o[r + N * k]?) ∧
      (∀ k, (strideSlice im r N)[k]? = im[r + N * k]?) ∧
      (∀ k, (strideSlice nm r N)[k]? = nm[r + N * k]?) ∧
      strideSlice o 0 1 = o ∧ strideSlice im 0 1 = im ∧ strideSlice nm 0 1 = nm :=
  ⟨fun k => strideSlice_getElem o r N hN k,
   fun k => strideSlice_getElem im r N hN k,
   fun k => strideSlice_getElem nm r N hN k,
   strideSlice_zero_one o, strideSlice_zero_one im, strideSlice_zero_one nm⟩

/-- Witness for C2: five frames named `f0 … f4` with `reduction = 2`,
`residue = 1` yield the names `[f1, f3]`, and `N = 1, r = 0` is the
identity. -/
theorem strideSlice_spec_witness :
    strideSlice ["f0", "f1", "f2", "f3", "f4"] 1 2 = ["f1", "f3"] ∧
      (strideSlice ["f0", "f1", "f2", "f3", "f4"] 1 2)[0]? = some "f1" ∧
      (strideSlice ["f0", "f1", "f2", "f3", "f4"] 1 2)[1]? = some "f3" ∧
      strideSlice ["f0", "f1", "f2", "f3", "f4"] 0 1
        = ["f0", "f1", "f2", "f3", "f4"] := by
  have h := strideSlice_spec ["f0", "f1", "f2", "f3", "f4"] ([] : List Nat)
    ([] : List Nat) 2 1 (by omega)
  exact ⟨rfl, (h.1 0).trans rfl, (h.1 1).trans rfl, h.2.2.2.1⟩

/-- C3: the position the distance filter uses for frame `i` is the
rotation matrix obtained from the frame's rotation vector, applied to the
frame's translation vector — a plain matrix-vector product, not a true
camera-center transform — and the retention test compares `min_dist`
against the Euclidean norm (the real square root of the sum of squared
component differences) of the difference of two such positions. -/
theorem camPos_formula_and_euclidean (asM : Vec3 → Mat3) (vecs : List Pose)
    (d : ℚ) (u v : Vec3) :
    splitArgs asM vecs d
        = argSplit d
            (fun i => (asM (vecs.getD i default).rvec).mulVec (vecs.getD i default).tvec)
            vecs.length ∧
      (distGE u v d = true ↔
        (d : ℝ) ≤ Real.sqrt
          (((u.x : ℝ) - v.x) ^ 2 + ((u.y : ℝ) - v.y) ^ 2 + ((u.z : ℝ) - v.z) ^ 2)) :=
  ⟨rfl, distGE_iff_real u v d⟩

/-- C6: filtering preserves index alignment.  For the distance filter, one
list of retained original indices determines all three outputs: the `k`-th
entries of the three outputs all originate at the `k`-th retained original
index.  For the stride filter, the `k`-th entries of the three outputs all
originate at original index `r + N·k`. -/
theorem filter_alignment {α : Type u} {β : Type v} {γ : Type w}
    (asM : Vec3 → Mat3) (o : List α) (im : List β) (nm : List γ)
    (vecs : List Pose) (d : ℚ)
    (ho : o.length = vecs.length) (hi : im.length = vecs.length)
    (hn : nm.length = vecs.length) :
    (∀ (k i : Nat),
        ((List.range vecs.length).filter
            (fun j => (splitArgs asM vecs d).contains j))[k]? = some i →
          (split_by_distance asM o im nm vecs d).1[k]? = o[i]? ∧
            (split_by_distance asM o im nm vecs d).2.1[k]? = im[i]? ∧
            (split_by_distance asM o im nm vecs d).2.2[k]? = nm[i]?) ∧
      (∀ (N r k : Nat), 1 ≤ N →
        (strideSlice o r N)[k]? = o[r + N * k]? ∧
          (strideSlice im r N)[k]? = im[r + N * k]? ∧
          (strideSlice nm r N)[k]? = nm[r + N * k]?) := by
  constructor
  · intro k i h
    exact ⟨sel_getElem o _ k i (by rw [ho]; exact h),
      sel_getElem im _ k i (by rw [hi]; exact h),
      sel_getElem nm _ k i (by rw [hn]; exact h)⟩
  · intro N r k hN
    exact ⟨strideSlice_getElem o r N hN k, strideSlice_getElem im r N hN k,
      strideSlice_getElem nm r N hN k⟩

/-- Witness for C6 on the spec's example: the second retained index is 2,
and the second entry of each output is the corresponding input's entry at
index 2. -/
theorem filter_alignment_witness :
    (split_by_distance (fun _ => exIdMat) [10, 20, 30] [4, 5, 6] ["a", "b", "c"]
        exPoses (1/2)).1[1]? = some 30 ∧
      (split_by_distance (fun _ => exIdMat) [10, 20, 30] [4, 5, 6] ["a", "b", "c"]
        exPoses (1/2)).2.1[1]? = some 6 ∧
      (split_by_distance (fun _ => exIdMat) [10, 20, 30] [4, 5, 6] ["a", "b", "c"]
        exPoses (1/2)).2.2[1]? = some "c" := by
  have hsplit : splitArgs (fun _ => exIdMat) exPoses (1/2) = [0, 2] := by
    norm_num [splitArgs, argSplit, argSplitAux, distGE, posOf, camPos, Mat3.mulVec,
      Vec3.dot, Vec3.sub, Vec3.normSq, exPoses, exIdMat]
  have h := (filter_alignment (fun _ => exIdMat) ([10, 20, 30] : List Nat)
      ([4, 5, 6] : List Nat) ["a", "b", "c"] exPoses (1/2) (by rfl) (by rfl)
      (by rfl)).1 1 2 (by rw [hsplit]; decide)
  exact ⟨(h.1).trans rfl, (h.2.1).trans rfl, (h.2.2).trans rfl⟩

/-- C7: at most one filtering policy applies per invocation.  When the
distance flag is set the result is the distance filter's; when only the
time flag is set it is the stride filter's; when neither is set the three
lists are passed through unfiltered. -/
theorem filterStage_exclusive {α : Type u} {β : Type v} {γ : Type w}
    (a : Args) (asM : Vec3 → Mat3) (o : List α) (im : List β) (nm : List γ)
    (vecs : List Pose) :
    (a.filterdist = true →
        filterStage a asM o im nm vecs
          = split_by_distance asM o im nm vecs a.mindist) ∧
      (a.filterdist = false → a.filtertime = true →
        filterStage a asM o im nm vecs
          = (strideSlice o a.residue a.reduction,
             strideSlice im a.residue a.reduction,
             strideSlice nm a.residue a.reduction)) ∧
      (a.filterdist = false → a.filtertime = false →
        filterStage a asM o im nm vecs = (o, im, nm)) := by
  refine ⟨fun h => ?_, fun h1 h2 => ?_, fun h1 h2 => ?_⟩ <;> simp [filterStage, *]

/-- Witness for C7: with both flags off, the lists pass through
unfiltered. -/
theorem filterStage_exclusive_witness :
    filterStage ⟨false, false, 0, 1, 0⟩ (fun _ => exIdMat) [10] [4] ["a"] exPoses
      = ([10], [4], ["a"]) :=
  (filterStage_exclusive ⟨false, false, 0, 1, 0⟩ (fun _ => exIdMat) [10] [4]
    ["a"] exPoses).2.2 rfl rfl

/-- C10: when both the distance flag and the time flag are set, only the
distance filter is applied; the stride filter is silently skipped. -/
theorem filterStage_dist_precedence {α : Type u} {β : Type v} {γ : Type w}
    (a : Args) (asM : Vec3 → Mat3) (o : List α) (im : List β) (nm : List γ)
    (vecs : List Pose)
    (h1 : a.filterdist = true) (_h2 : a.filtertime = true) :
    filterStage a asM o im nm vecs = split_by_distance asM o im nm vecs a.mindist := by
  simp [filterStage, h1]

/-- Witness for C10 at concrete arguments with both flags set. -/
theorem filterStage_dist_precedence_witness :
    filterStage ⟨true, true, 1/2, 2, 1⟩ (fun _ => exIdMat) [10, 20, 30] [4, 5, 6]
        ["a", "b", "c"] exPoses
      = split_by_distance (fun _ => exIdMat) [10, 20, 30] [4, 5, 6]
          ["a", "b", "c"] exPoses (1/2) :=
  filterStage_dist_precedence ⟨true, true, 1/2, 2, 1⟩ (fun _ => exIdMat)
    [10, 20, 30] [4, 5, 6] ["a", "b", "c"] exPoses rfl rfl

end GsiCalib
